import Mathlib

set_option maxHeartbeats 1000000

namespace Govfs

/-! Shallow embedding of the govfs tool (src/main.go): the generated virtual
file runtime from the `tmplHeader` template (`Open`, `File.Read`, `File.Seek`)
and the generator pipeline (`vfs.walk`, `vfs.writeFile`, `path.Join`,
`path.Clean`).  Bytes are modelled as `Nat` values, Go `int64`/`int` values as
`Int`. -/

/-- Translation of `const maxSize = int64(math.MaxInt32)`. -/
def maxSize : Int := 2147483647

/-- Translation of the generated runtime type `file` (contents and version). -/
structure Entry where
  contents : List Nat
  version : String
deriving DecidableEq

/-- Translation of the generated runtime type `File` (open descriptor). -/
structure File where
  f : Entry
  path : String
  offset : Int
deriving DecidableEq

/-- The runtime error values produced by the generated code. -/
inductive VfsError
  | notFound
  | versionMismatch
  | invalidWhence
  | invalidOffset
  | endOfStream
deriving DecidableEq

/-- Exact-key lookup in the generated `store` map (`f, ok := store[path]`). -/
def lookupStore : List (String × Entry) → String → Option Entry
  | [], _ => none
  | (k, e) :: rest, p => if k = p then some e else lookupStore rest p

/-- Translation of the generated `Open(path, version)`. -/
def Open (store : List (String × Entry)) (path version : String) :
    Except VfsError File :=
  match lookupStore store path with
  | none => .error .notFound
  | some f =>
    if version ≠ "" ∧ f.version ≠ version then .error .versionMismatch
    else .ok ⟨f, path, 0⟩

/-- The result of a `Read` call: bytes copied, error value, bytes copied into
the caller buffer, and the handle after the call. -/
structure ReadResult where
  n : Nat
  err : Option VfsError
  data : List Nat
  after : File
deriving DecidableEq

/-- Translation of the generated `File.Read(b)`.  The caller buffer is
modelled by its capacity `bufLen`; the bytes copied into it are returned in
`data`. -/
def File.Read (f : File) (bufLen : Nat) : ReadResult :=
  let available : Int := (f.f.contents.length : Int) - f.offset
  if available = 0 then ⟨0, some .endOfStream, [], f⟩
  else
    let canRead : Int :=
      if (bufLen : Int) < available then (bufLen : Int) else available
    ⟨canRead.toNat, none,
      (f.f.contents.drop f.offset.toNat).take canRead.toNat,
      ⟨f.f, f.path, f.offset + canRead⟩⟩

/-- The constant `io.SeekStart`. -/
def seekStart : Int := 0

/-- The constant `io.SeekCurrent`. -/
def seekCurrent : Int := 1

/-- The constant `io.SeekEnd`. -/
def seekEnd : Int := 2

/-- The final bounds check and cursor assignment shared by every successful
`Seek` branch of the generated code. -/
def seekCommit (f : File) (newOffset : Int) : Except VfsError (Int × File) :=
  if maxSize < newOffset ∨ newOffset < 0 ∨
      (f.f.contents.length : Int) < newOffset then
    .error .invalidOffset
  else .ok (newOffset, ⟨f.f, f.path, newOffset⟩)

/-- Translation of the generated `File.Seek(offset, whence)`. -/
def File.Seek (f : File) (offset whence : Int) : Except VfsError (Int × File) :=
  if maxSize < offset then .error .invalidOffset
  else if whence = seekStart then seekCommit f offset
  else if whence = seekEnd then
    seekCommit f ((f.f.contents.length : Int) - offset)
  else if whence = seekCurrent then seekCommit f (f.offset + offset)
  else .error .invalidWhence

/-- One runtime operation on an open handle, for stating the cursor
invariant. -/
inductive Op
  | read (bufLen : Nat)
  | seek (offset whence : Int)

/-- Apply one operation to a handle.  A failed `Seek` leaves the handle
unchanged, matching the generated code, which assigns `f.offset` only after
all checks pass. -/
def applyOp (f : File) : Op → File
  | .read bufLen => (f.Read bufLen).after
  | .seek offset whence =>
    match f.Seek offset whence with
    | .ok r => r.2
    | .error _ => f

/-- The handle invariant `0 ≤ offset ≤ size`. -/
def WFHandle (f : File) : Prop :=
  0 ≤ f.offset ∧ f.offset ≤ (f.f.contents.length : Int)

instance (f : File) : Decidable (WFHandle f) :=
  inferInstanceAs (Decidable (0 ≤ f.offset ∧ f.offset ≤ (f.f.contents.length : Int)))

/-- Fixture entry: Scenario A of the spec, contents "hi". -/
def sampleEntry : Entry := ⟨[104, 105], "013b00d2"⟩

/-- Fixture store with a single key `/docs/hello.txt`. -/
def sampleStore : List (String × Entry) := [("/docs/hello.txt", sampleEntry)]

/-- Fixture open handle on the sample entry with cursor 0. -/
def sampleFile : File := ⟨sampleEntry, "/docs/hello.txt", 0⟩

/-- C1: `Seek` computes the candidate offset `offset` / `cur + offset` /
`size − offset` according to `whence`, rejects any other whence value with
`InvalidWhence`, fails with `InvalidOffset` when the input offset exceeds
`maxSize` or the candidate exceeds `maxSize`, is negative, or exceeds the
size, and otherwise commits the candidate as the new cursor and returns it. -/
theorem seek_semantics (f : File) (offset whence : Int) :
    (∀ cand : Int,
      ((whence = seekStart ∧ cand = offset) ∨
       (whence = seekCurrent ∧ cand = f.offset + offset) ∨
       (whence = seekEnd ∧ cand = (f.f.contents.length : Int) - offset)) →
      ((maxSize < offset ∨ maxSize < cand ∨ cand < 0 ∨
          (f.f.contents.length : Int) < cand →
          f.Seek offset whence = .error .invalidOffset)
       ∧ (offset ≤ maxSize → 0 ≤ cand →
            cand ≤ (f.f.contents.length : Int) → cand ≤ maxSize →
            f.Seek offset whence = .ok (cand, ⟨f.f, f.path, cand⟩))))
  ∧ (offset ≤ maxSize → whence ≠ seekStart → whence ≠ seekCurrent →
      whence ≠ seekEnd → f.Seek offset whence = .error .invalidWhence) := by
  constructor
  · rintro cand (⟨hw, hc⟩ | ⟨hw, hc⟩ | ⟨hw, hc⟩) <;> subst hw <;> subst hc <;>
      constructor <;> intros <;>
      · simp only [File.Seek, seekCommit, seekStart, seekCurrent, seekEnd]
        split_ifs <;> first | rfl | omega
  · intro h1 h2 h3 h4
    simp only [File.Seek, seekStart, seekCurrent, seekEnd] at h2 h3 h4 ⊢
    split_ifs <;> first | rfl | omega

/-- Witness for C1: seeking to absolute offset 1 on the sample handle. -/
theorem seek_semantics_witness :
    sampleFile.Seek 1 seekStart = .ok (1, ⟨sampleFile.f, sampleFile.path, 1⟩) := by
  have h := seek_semantics sampleFile 1 seekStart
  exact (h.1 1 (Or.inl ⟨rfl, rfl⟩)).2 (by decide) (by decide) (by decide) (by decide)

/-- C9: the input-offset bound is checked before the whence value: an input
offset above `maxSize` yields `InvalidOffset` even for an invalid whence, and
`InvalidWhence` is only returned when the input offset is at most `maxSize`. -/
theorem seek_offset_before_whence (f : File) (offset whence : Int) :
    (maxSize < offset → f.Seek offset whence = .error .invalidOffset)
  ∧ (f.Seek offset whence = .error .invalidWhence → offset ≤ maxSize) := by
  constructor
  · intro h
    simp [File.Seek, h]
  · intro h
    by_contra hlt
    push_neg at hlt
    simp [File.Seek, hlt] at h

/-- Witness for C9: oversized input offset together with an invalid whence. -/
theorem seek_offset_before_whence_witness :
    sampleFile.Seek (maxSize + 1) 99 = .error .invalidOffset :=
  (seek_offset_before_whence sampleFile (maxSize + 1) 99).1 (by omega)

/-- C2: with `available = size − offset`, `Read` returns `(0, EndOfStream)`
exactly when `available = 0` (also for a zero-capacity buffer); otherwise it
copies `min(available, capacity)` bytes (0 with no error when the buffer
capacity is 0), advances the cursor by exactly the copied count, and returns
that count with no error. -/
theorem read_available (f : File) (bufLen : Nat)
    (h0 : 0 ≤ f.offset) (h1 : f.offset ≤ (f.f.contents.length : Int)) :
    ((f.f.contents.length : Int) - f.offset = 0 →
        f.Read bufLen = ⟨0, some .endOfStream, [], f⟩)
  ∧ (0 < (f.f.contents.length : Int) - f.offset →
        (((f.Read bufLen).n : Int) =
            min ((f.f.contents.length : Int) - f.offset) (bufLen : Int)
         ∧ (f.Read bufLen).err = none
         ∧ (f.Read bufLen).after.offset = f.offset + ((f.Read bufLen).n : Int)
         ∧ (bufLen = 0 → (f.Read bufLen).n = 0 ∧ (f.Read bufLen).err = none))) := by
  constructor
  · intro hav
    simp [File.Read, hav]
  · intro hav
    have hne : ¬ ((f.f.contents.length : Int) - f.offset = 0) := by omega
    refine ⟨?_, ?_, ?_, ?_⟩
    · simp only [File.Read, if_neg hne]
      split_ifs with hb <;> omega
    · simp [File.Read, hne]
    · simp only [File.Read, if_neg hne]
      split_ifs with hb <;> omega
    · intro hz
      subst hz
      constructor
      · simp only [File.Read, if_neg hne]
        split_ifs with hb <;> omega
      · simp [File.Read, hne]

/-- Witness for C2 at a concrete handle and a one-byte buffer. -/
theorem read_available_witness :
    ((sampleFile.Read 1).n : Int) =
        min ((sampleFile.f.contents.length : Int) - sampleFile.offset) (1 : Int)
      ∧ (sampleFile.Read 1).err = none := by
  have h := (read_available sampleFile 1 (by decide) (by decide)).2 (by decide)
  exact ⟨h.1, h.2.1⟩

/-- C3: `Open` fails with `NotFound` exactly when the path is not a store
key; a non-empty expected version that differs from the stored version fails
with `VersionMismatch`; an empty expected version skips the check and `Open`
succeeds for any stored version; every successful `Open` returns a fresh
handle at offset 0 for the requested path. -/
theorem open_semantics (store : List (String × Entry)) (p v : String) :
    (Open store p v = .error .notFound ↔ lookupStore store p = none)
  ∧ (∀ e, lookupStore store p = some e →
      ((v ≠ "" → e.version ≠ v → Open store p v = .error .versionMismatch)
       ∧ (v = "" → Open store p v = .ok ⟨e, p, 0⟩)
       ∧ (e.version = v → Open store p v = .ok ⟨e, p, 0⟩)))
  ∧ (∀ h, Open store p v = .ok h → h.offset = 0 ∧ h.path = p) := by
  refine ⟨?_, ?_, ?_⟩
  · cases hlk : lookupStore store p with
    | none => simp [Open, hlk]
    | some e =>
      simp only [Open, hlk]
      split_ifs <;> simp
  · intro e hlk
    refine ⟨?_, ?_, ?_⟩
    · intro hv hne
      simp [Open, hlk, hv, hne]
    · intro hv
      simp [Open, hlk, hv]
    · intro hv
      simp [Open, hlk, hv]
  · intro h hok
    cases hlk : lookupStore store p with
    | none => simp [Open, hlk] at hok
    | some e =>
      simp only [Open, hlk] at hok
      split_ifs at hok <;> simp_all
      exact ⟨hok.symm ▸ rfl, hok.symm ▸ rfl⟩

/-- Witness for C3: opening the sample path with an empty expected version. -/
theorem open_semantics_witness :
    Open sampleStore "/docs/hello.txt" "" = .ok ⟨sampleEntry, "/docs/hello.txt", 0⟩ := by
  have h := (open_semantics sampleStore "/docs/hello.txt" "").2.1 sampleEntry rfl
  exact h.2.1 rfl

/-- Helper: `Read` preserves the cursor invariant. -/
theorem readAfter_wf (f : File) (bufLen : Nat) (h : WFHandle f) :
    WFHandle (f.Read bufLen).after := by
  obtain ⟨ha, hb⟩ := h
  by_cases hav : ((f.f.contents.length : Int) - f.offset = 0)
  · simpa [File.Read, hav, WFHandle] using ⟨ha, hb⟩
  · simp only [File.Read, if_neg hav, WFHandle]
    split_ifs <;> constructor <;> omega

/-- Helper: `Seek` preserves the cursor invariant (a failed seek leaves the
handle unchanged, a successful one commits a candidate within bounds). -/
theorem seekResult_wf (f : File) (offset whence : Int) (h : WFHandle f) :
    WFHandle (applyOp f (.seek offset whence)) := by
  obtain ⟨ha, hb⟩ := h
  simp only [applyOp, File.Seek, seekCommit]
  split_ifs <;> simp [WFHandle] <;> omega

/-- Helper: every operation preserves the cursor invariant. -/
theorem applyOp_wf (f : File) (op : Op) (h : WFHandle f) :
    WFHandle (applyOp f op) := by
  cases op with
  | read bufLen => exact readAfter_wf f bufLen h
  | seek offset whence => exact seekResult_wf f offset whence h

/-- C4: every handle returned by `Open` starts at offset 0 and satisfies
`0 ≤ offset ≤ size`, and the invariant is preserved by every sequence of
`Read` and `Seek` operations on the handle. -/
theorem handle_invariant (store : List (String × Entry)) (p v : String)
    (h0 : File) (hopen : Open store p v = .ok h0) (ops : List Op) :
    h0.offset = 0 ∧ WFHandle (ops.foldl applyOp h0) := by
  have hz : h0.offset = 0 := by
    cases hlk : lookupStore store p with
    | none => simp [Open, hlk] at hopen
    | some e =>
      simp only [Open, hlk] at hopen
      split_ifs at hopen <;> simp_all
      exact hopen.symm ▸ rfl
  have hwf : WFHandle h0 := ⟨by omega, by rw [hz]; positivity⟩
  refine ⟨hz, ?_⟩
  clear hopen hz
  induction ops generalizing h0 with
  | nil => exact hwf
  | cons op rest ih => exact ih _ (applyOp_wf h0 op hwf)

/-- Witness for C4: a concrete open followed by a read and a seek-to-end. -/
theorem handle_invariant_witness :
    sampleFile.offset = 0 ∧
      WFHandle ([Op.read 1, Op.seek 0 seekEnd].foldl applyOp sampleFile) :=
  handle_invariant sampleStore "/docs/hello.txt" "" sampleFile (by rfl)
    [Op.read 1, Op.seek 0 seekEnd]

/-- The Adler-32 modulus. -/
def adlerMod : Nat := 65521

/-- One byte of Adler-32 state update (`hash/adler32` processes its input one
byte at a time: `a += b; b += a` modulo 65521). -/
def adlerStep (st : Nat × Nat) (byte : Nat) : Nat × Nat :=
  ((st.1 + byte) % adlerMod, (st.2 + st.1 + byte) % adlerMod)

/-- The initial Adler-32 state (`adler32.New()` starts at 1). -/
def adlerInit : Nat × Nat := (1, 0)

/-- `Sum32`: the high half is the `b` accumulator, the low half `a`. -/
def sum32 (st : Nat × Nat) : Nat := st.2 * 65536 + st.1

/-- The Adler-32 checksum of a whole byte stream. -/
def adler32 (bytes : List Nat) : Nat := sum32 (bytes.foldl adlerStep adlerInit)

/-- One lowercase hexadecimal digit. -/
def hexDigit (n : Nat) : Char :=
  if n < 10 then Char.ofNat (48 + n) else Char.ofNat (87 + n)

/-- Two lowercase hexadecimal digits of one byte, as printed by `%x` on a
byte slice. -/
def hexByte (b : Nat) : List Char := [hexDigit (b / 16 % 16), hexDigit (b % 16)]

/-- `fmt.Sprintf("%x", hash.Sum(nil))`: the four big-endian checksum bytes,
each rendered as two lowercase hex digits. -/
def hexSum32 (s : Nat) : String :=
  String.mk (hexByte (s / 16777216 % 256) ++ hexByte (s / 65536 % 256) ++
    hexByte (s / 256 % 256) ++ hexByte (s % 256))

/-- The reads performed by the `f.Read(v.buf)` loop of `vfs.writeFile` with
its 4096-byte buffer: the source stream split into chunks of at most 4096
bytes. -/
def chunked4096 (l : List Nat) : List (List Nat) :=
  match l with
  | [] => []
  | b :: rest => (b :: rest).take 4096 :: chunked4096 ((b :: rest).drop 4096)
termination_by l.length
decreasing_by simp; omega

/-- Errors of the generator `vfs.writeFile`. -/
inductive WriteErr
  | maxSizeExceeded
deriving DecidableEq

/-- Observable side effects of `vfs.writeFile`, in source order. -/
inductive WEvent
  | openSrc
  | readChunk (n : Nat)
  | emitEntryHeader (target : String)
  | emitByte (b : Nat)
  | emitEntryFooter (version : String)
deriving DecidableEq

/-- Translation of `vfs.writeFile(target, src, size)`.  The source file is
modelled by its byte list `contents` and its declared size `size`
(`info.Size()`); `hasW` is whether an output sink is configured
(`v.w != nil`).  The returned event list records, in order, the opening of
the source, each chunked read, and each piece of artifact output. -/
def writeFile (hasW : Bool) (target : String) (contents : List Nat)
    (size : Int) : Except WriteErr String × List WEvent :=
  if hasW = false then (.ok "", [])
  else if maxSize < size then (.error .maxSizeExceeded, [])
  else
    let chunks := chunked4096 contents
    let final := chunks.foldl (fun st ch => ch.foldl adlerStep st) adlerInit
    let version := hexSum32 (sum32 final)
    (.ok version,
      .openSrc :: .emitEntryHeader target ::
        (chunks.flatMap fun ch => .readChunk ch.length :: ch.map WEvent.emitByte)
        ++ [.emitEntryFooter version])

/-- Helper: feeding the hash chunk by chunk equals feeding it the whole
stream, so the chunk size does not affect the checksum. -/
theorem chunked_foldl_le (n : Nat) : ∀ (l : List Nat), l.length ≤ n →
    ∀ st : Nat × Nat,
      (chunked4096 l).foldl (fun s ch => ch.foldl adlerStep s) st =
        l.foldl adlerStep st := by
  induction n with
  | zero =>
    intro l hl st
    have : l = [] := by cases l <;> simp_all
    subst this
    simp [chunked4096]
  | succ n ih =>
    intro l hl st
    cases l with
    | nil => simp [chunked4096]
    | cons b rest =>
      rw [show chunked4096 (b :: rest) =
          (b :: rest).take 4096 :: chunked4096 ((b :: rest).drop 4096) from by
        rw [chunked4096]]
      rw [List.foldl_cons]
      rw [ih ((b :: rest).drop 4096) (by simp at hl ⊢; omega) _]
      rw [← List.foldl_append, List.take_append_drop]

/-- Helper: the checksum computed by the chunked read loop. -/
theorem chunked_foldl (l : List Nat) (st : Nat × Nat) :
    (chunked4096 l).foldl (fun s ch => ch.foldl adlerStep s) st =
      l.foldl adlerStep st :=
  chunked_foldl_le l.length l le_rfl st

/-- C5: a declared size above `maxSize = 2^31 − 1` is rejected before the
source is opened or read and before any per-entry artifact output, with an
empty event list; a declared size of `2^31` bytes is rejected that way while
`2^31 − 1` bytes is accepted. -/
theorem size_bound (target : String) (contents : List Nat) :
    (∀ size : Int, maxSize < size →
        writeFile true target contents size = (.error .maxSizeExceeded, []))
  ∧ writeFile true target contents (2 ^ 31) = (.error .maxSizeExceeded, [])
  ∧ (∃ ver, (writeFile true target contents (2 ^ 31 - 1)).1 = .ok ver) := by
  have hm : maxSize = (2147483647 : Int) := rfl
  refine ⟨?_, ?_, ?_⟩
  · intro size hs
    simp [writeFile, hs]
  · have hlt : maxSize < (2 ^ 31 : Int) := by rw [hm]; norm_num
    simp only [writeFile, Bool.true_eq_false, if_false, if_pos hlt]
  · have hlt : ¬ (maxSize < (2 ^ 31 - 1 : Int)) := by rw [hm]; norm_num
    refine ⟨hexSum32 (sum32 ((chunked4096 contents).foldl
      (fun st ch => ch.foldl adlerStep st) adlerInit)), ?_⟩
    simp only [writeFile, Bool.true_eq_false, if_false, if_neg hlt]

/-- Witness for C5: rejecting a concrete oversized declared size. -/
theorem size_bound_witness :
    writeFile true "/t" [7] (maxSize + 1) = (.error .maxSizeExceeded, []) :=
  (size_bound "/t" [7]).1 (maxSize + 1) (by omega)

/-- C7: an encoded file's version is the lowercase hexadecimal rendering of
the Adler-32 checksum of its bytes in stream order, hence a pure
deterministic function of the contents: it depends neither on the target
path, nor on the declared size, nor on the chunk boundaries of the read
loop. -/
theorem version_is_adler32 (target : String) (contents : List Nat)
    (size : Int) (hsz : size ≤ maxSize) :
    (writeFile true target contents size).1 = .ok (hexSum32 (adler32 contents))
  ∧ (∀ target2 size2, size2 ≤ maxSize →
      (writeFile true target2 contents size2).1 =
        (writeFile true target contents size).1) := by
  have hkey : ∀ (t : String) (s : Int), s ≤ maxSize →
      (writeFile true t contents s).1 = .ok (hexSum32 (adler32 contents)) := by
    intro t s hs
    have hns : ¬ (maxSize < s) := by omega
    simp only [writeFile, if_neg hns, Bool.true_eq_false, if_false]
    rw [chunked_foldl]
    rfl
  exact ⟨hkey target size hsz,
    fun t2 s2 h2 => (hkey t2 s2 h2).trans (hkey target size hsz).symm⟩

/-- Witness for C7 on the Scenario A contents "hi". -/
theorem version_is_adler32_witness :
    (writeFile true "/docs/hello.txt" [104, 105] 2).1 =
      .ok (hexSum32 (adler32 [104, 105])) :=
  (version_is_adler32 "/docs/hello.txt" [104, 105] 2 (by norm_num [maxSize])).1

/-- Translation of the registration loop of `vfs.walk`: each discovered
regular file, given as its computed virtual target path and its contents, is
checked against the processed registry (`v.processed[target]`); a hit calls
`errorExit`, which aborts the whole run, carried here as an error holding the
colliding target and the registry at the moment of the abort; otherwise the
file is registered and the walk continues. -/
def registerFiles : List (String × List Nat) → List (String × List Nat) →
    Except (String × List (String × List Nat)) (List (String × List Nat))
  | [], acc => .ok acc
  | (t, c) :: rest, acc =>
    if t ∈ acc.map Prod.fst then .error (t, acc)
    else registerFiles rest (acc ++ [(t, c)])

/-- Helper: a walk over distinct targets registers everything in order. -/
theorem registerFiles_ok (fs : List (String × List Nat)) :
    ∀ acc reg, registerFiles fs acc = .ok reg →
      (acc.map Prod.fst).Nodup →
      reg = acc ++ fs ∧ (reg.map Prod.fst).Nodup := by
  induction fs with
  | nil =>
    intro acc reg h hnd
    simp only [registerFiles] at h
    cases h
    simpa using hnd
  | cons x rest ih =>
    intro acc reg h hnd
    obtain ⟨t, c⟩ := x
    by_cases hm : t ∈ acc.map Prod.fst
    · simp [registerFiles, hm] at h
    · simp only [registerFiles, if_neg hm] at h
      have hnd2 : ((acc ++ [(t, c)]).map Prod.fst).Nodup := by
        simp [List.nodup_append, hnd, hm]
      obtain ⟨h1, h2⟩ := ih (acc ++ [(t, c)]) reg h hnd2
      exact ⟨by simpa [List.append_assoc] using h1, h2⟩

/-- Helper: the first duplicate target aborts the walk with exactly the
earlier files registered. -/
theorem registerFiles_collision (pre : List (String × List Nat)) :
    ∀ (acc : List (String × List Nat)) (t : String) (c : List Nat) rest,
      ((acc ++ pre).map Prod.fst).Nodup → t ∈ (acc ++ pre).map Prod.fst →
      registerFiles (pre ++ (t, c) :: rest) acc = .error (t, acc ++ pre) := by
  induction pre with
  | nil =>
    intro acc t c rest hnd hm
    simp only [List.append_nil] at hm ⊢
    simp [registerFiles, hm]
  | cons x pre2 ih =>
    intro acc t c rest hnd hm
    obtain ⟨s, d⟩ := x
    have hs : s ∉ acc.map Prod.fst := by
      simp only [List.map_append, List.nodup_append] at hnd
      exact fun hin => hnd.2.2 hin (by simp)
    rw [List.cons_append]
    simp only [registerFiles, if_neg hs]
    have hre : acc ++ [(s, d)] ++ pre2 = acc ++ (s, d) :: pre2 := by
      simp
    have := ih (acc ++ [(s, d)]) t c rest (by rw [hre]; exact hnd)
      (by rw [hre]; exact hm)
    rw [hre] at this
    exact this

/-- C6: registering a file at a virtual target path already present in the
registry aborts the run at that file, with exactly the earlier files
registered, whatever the contents of either file; a run that completes
registers every input file once, in order, and its registered virtual paths
are pairwise distinct, so each comes from exactly one source file. -/
theorem registry_collision_fatal :
    (∀ (pre : List (String × List Nat)) (t : String) (c : List Nat) rest,
        (pre.map Prod.fst).Nodup → t ∈ pre.map Prod.fst →
        registerFiles (pre ++ (t, c) :: rest) [] = .error (t, pre))
  ∧ (∀ fs reg, registerFiles fs [] = .ok reg →
        reg = fs ∧ (fs.map Prod.fst).Nodup) := by
  constructor
  · intro pre t c rest hnd hm
    simpa using registerFiles_collision pre [] t c rest (by simpa using hnd)
      (by simpa using hm)
  · intro fs reg h
    obtain ⟨h1, h2⟩ := registerFiles_ok fs [] reg h (by simp)
    simp only [List.nil_append] at h1
    exact ⟨h1, h1 ▸ h2⟩

/-- Witness for C6: two sources with identical contents mapping to the same
virtual path; the run aborts on the second with only the first registered. -/
theorem registry_collision_fatal_witness :
    registerFiles ([("/out/x.txt", [1])] ++ ("/out/x.txt", [1]) :: []) [] =
      .error ("/out/x.txt", [("/out/x.txt", [1])]) :=
  registry_collision_fatal.1 [("/out/x.txt", [1])] "/out/x.txt" [1] []
    (by simp) (by simp)

/-- Split a character list at every slash, keeping empty segments. -/
def splitSlash : List Char → List (List Char)
  | [] => [[]]
  | c :: rest =>
    if c = '/' then [] :: splitSlash rest
    else
      match splitSlash rest with
      | [] => [[c]]
      | seg :: segs => (c :: seg) :: segs

/-- Join segments with slashes (left inverse of `splitSlash` on slash-free
segments). -/
def joinSegs : List (List Char) → List Char
  | [] => []
  | [seg] => seg
  | seg :: seg2 :: rest => seg ++ '/' :: joinSegs (seg2 :: rest)

/-- The segment processing of Go `path.Clean`: empty and `.` segments are
dropped; `..` pops the previous real segment, stacks up at the top of a
relative path, and is dropped at the root of a rooted one. -/
def cleanSegs (rooted : Bool) : List (List Char) → List (List Char) →
    List (List Char)
  | [], acc => acc.reverse
  | seg :: rest, acc =>
    if seg = [] ∨ seg = ['.'] then cleanSegs rooted rest acc
    else if seg = ['.', '.'] then
      match acc with
      | [] =>
        if rooted then cleanSegs rooted rest []
        else cleanSegs rooted rest [seg]
      | top :: acc2 =>
        if top = ['.', '.'] then cleanSegs rooted rest (seg :: top :: acc2)
        else cleanSegs rooted rest acc2
    else cleanSegs rooted rest (seg :: acc)

/-- Translation of Go `path.Clean` on the character-list view of a path. -/
def pathCleanL (s : List Char) : List Char :=
  match s with
  | [] => ['.']
  | c :: _ =>
    if c = '/' then
      match cleanSegs true (splitSlash s) [] with
      | [] => ['/']
      | seg :: segs => '/' :: joinSegs (seg :: segs)
    else
      match cleanSegs false (splitSlash s) [] with
      | [] => ['.']
      | seg :: segs => joinSegs (seg :: segs)

/-- Translation of Go `path.Clean`. -/
def pathClean (s : String) : String := String.mk (pathCleanL s.data)

/-- Translation of Go `path.Join`: skip leading empty elements, join the
remaining elements with slashes, and clean the result ("" when every element
is empty). -/
def pathJoin (elems : List String) : String :=
  match elems.dropWhile fun e => decide (e = "") with
  | [] => ""
  | e :: es => pathClean (String.mk (joinSegs ((e :: es).map String.data)))

/-- The virtual target path computed by `vfs.walk`:
`path.Join(targetDir, base, rel)` with `base = filepath.Base(src)` and
`rel = filepath.ToSlash(filepath.Rel(src, p))`. -/
def targetPath (targetDir base rel : String) : String :=
  pathJoin [targetDir, base, rel]

/-- Helper: membership in the keys of the store decides the lookup. -/
theorem lookupStore_eq_none (store : List (String × Entry)) (p : String) :
    lookupStore store p = none ↔ p ∉ store.map Prod.fst := by
  induction store with
  | nil => simp [lookupStore]
  | cons x rest ih =>
    obtain ⟨k, e⟩ := x
    by_cases hk : k = p
    · subst hk
      simp [lookupStore]
    · have hp : ¬ p = k := fun h => hk h.symm
      simp [lookupStore, hk, ih, hp]

/-- C10: `Open` looks its path argument up by exact string comparison, with
no normalization: every path that is not literally a store key fails with
`NotFound`, including variants of a stored key that differ from it only by a
redundant slash, a `.` segment, or a trailing slash — variants that
`path.Clean` maps to the stored key. -/
theorem open_exact_lookup :
    (∀ (store : List (String × Entry)) (p v : String),
        p ∉ store.map Prod.fst → Open store p v = .error .notFound)
  ∧ (∀ v, Open sampleStore "/docs//hello.txt" v = .error .notFound)
  ∧ (∀ v, Open sampleStore "/docs/./hello.txt" v = .error .notFound)
  ∧ (∀ v, Open sampleStore "/docs/hello.txt/" v = .error .notFound)
  ∧ pathClean "/docs//hello.txt" = "/docs/hello.txt"
  ∧ pathClean "/docs/./hello.txt" = "/docs/hello.txt"
  ∧ pathClean "/docs/hello.txt/" = "/docs/hello.txt" := by
  refine ⟨?_, fun v => rfl, fun v => rfl, fun v => rfl,
    by decide, by decide, by decide⟩
  intro store p v h
  rw [← lookupStore_eq_none] at h
  simp [Open, h]

/-- Witness for C10: a path absent from the sample store is `NotFound`. -/
theorem open_exact_lookup_witness :
    Open sampleStore "/docs/hello" "" = .error .notFound :=
  open_exact_lookup.1 sampleStore "/docs/hello" "" (by decide)

/-- A plain path segment: nonempty, not `.` or `..`, slash-free. -/
def plainSeg (seg : List Char) : Prop :=
  seg ≠ [] ∧ seg ≠ ['.'] ∧ seg ≠ ['.', '.'] ∧ '/' ∉ seg

instance (seg : List Char) : Decidable (plainSeg seg) :=
  inferInstanceAs
    (Decidable (seg ≠ [] ∧ seg ≠ ['.'] ∧ seg ≠ ['.', '.'] ∧ '/' ∉ seg))

/-- A rooted slash-separated path assembled from segments. -/
def rootedStr (segs : List (List Char)) : String :=
  String.mk ('/' :: joinSegs segs)

/-- Helper: splitting a slash-free list yields one segment. -/
theorem splitSlash_noSlash (s : List Char) (h : '/' ∉ s) :
    splitSlash s = [s] := by
  induction s with
  | nil => rfl
  | cons c rest ih =>
    simp only [List.mem_cons, not_or] at h
    have hc : ¬ (c = '/') := fun hcc => h.1 hcc.symm
    simp [splitSlash, hc, ih h.2]

/-- Helper: splitting off one slash-free head segment. -/
theorem splitSlash_append (s t : List Char) (h : '/' ∉ s) :
    splitSlash (s ++ '/' :: t) = s :: splitSlash t := by
  induction s with
  | nil => simp [splitSlash]
  | cons c rest ih =>
    simp only [List.mem_cons, not_or] at h
    have hc : ¬ (c = '/') := fun hcc => h.1 hcc.symm
    simp [splitSlash, hc, ih h.2]

/-- Helper: `splitSlash` inverts `joinSegs` on slash-free segments. -/
theorem splitSlash_joinSegs : ∀ segs : List (List Char), segs ≠ [] →
    (∀ seg ∈ segs, '/' ∉ seg) → splitSlash (joinSegs segs) = segs := by
  intro segs
  induction segs with
  | nil => intro h0 _; exact absurd rfl h0
  | cons s rest ih =>
    intro _ h
    cases rest with
    | nil => simpa [joinSegs] using splitSlash_noSlash s (h s (by simp))
    | cons s2 rest2 =>
      rw [show joinSegs (s :: s2 :: rest2) = s ++ '/' :: joinSegs (s2 :: rest2)
        from rfl]
      rw [splitSlash_append s _ (h s (by simp))]
      rw [ih (by simp) (fun seg hm => h seg (by simp [hm]))]

/-- Helper: joining concatenated nonempty segment lists. -/
theorem joinSegs_append : ∀ xs ys : List (List Char), xs ≠ [] → ys ≠ [] →
    joinSegs (xs ++ ys) = joinSegs xs ++ '/' :: joinSegs ys := by
  intro xs
  induction xs with
  | nil => intro ys h _; exact absurd rfl h
  | cons x xs2 ih =>
    intro ys _ hy
    cases xs2 with
    | nil =>
      cases ys with
      | nil => exact absurd rfl hy
      | cons y ys2 => simp [joinSegs]
    | cons x2 xs3 =>
      have h1 : joinSegs ((x :: x2 :: xs3) ++ ys) =
          x ++ '/' :: joinSegs ((x2 :: xs3) ++ ys) := rfl
      rw [h1, ih ys (by simp) hy]
      simp [joinSegs, List.append_assoc]

/-- Helper: an empty segment is dropped. -/
theorem cleanSegs_skip (rooted : Bool) (rest acc : List (List Char)) :
    cleanSegs rooted ([] :: rest) acc = cleanSegs rooted rest acc := by
  simp [cleanSegs]

/-- Helper: a `.` segment is dropped. -/
theorem cleanSegs_dot (rooted : Bool) (rest acc : List (List Char)) :
    cleanSegs rooted (['.'] :: rest) acc = cleanSegs rooted rest acc := by
  simp [cleanSegs]

/-- Helper: an exhausted segment list returns the accumulated output. -/
theorem cleanSegs_nil (rooted : Bool) (acc : List (List Char)) :
    cleanSegs rooted [] acc = acc.reverse := by
  simp [cleanSegs]

/-- Helper: a plain segment is pushed onto the output. -/
theorem cleanSegs_plain_step (rooted : Bool) (s : List Char)
    (rest acc : List (List Char)) (hs : plainSeg s) :
    cleanSegs rooted (s :: rest) acc = cleanSegs rooted rest (s :: acc) := by
  obtain ⟨h1, h2, h3, _⟩ := hs
  simp [cleanSegs, h1, h2, h3]

/-- Helper: a run of plain segments is pushed through unchanged. -/
theorem cleanSegs_plain_run : ∀ (segs : List (List Char)) (rooted : Bool)
    (tail acc : List (List Char)), (∀ seg ∈ segs, plainSeg seg) →
    cleanSegs rooted (segs ++ tail) acc =
      cleanSegs rooted tail (segs.reverse ++ acc) := by
  intro segs
  induction segs with
  | nil => intro rooted tail acc _; simp
  | cons s rest ih =>
    intro rooted tail acc h
    rw [List.cons_append, cleanSegs_plain_step rooted s _ acc (h s (by simp))]
    rw [ih rooted tail (s :: acc) (fun seg hm => h seg (by simp [hm]))]
    simp

/-- Helper: a list of plain segments is already clean. -/
theorem cleanSegs_all_plain (rooted : Bool) (segs : List (List Char))
    (h : ∀ seg ∈ segs, plainSeg seg) :
    cleanSegs rooted segs [] = segs := by
  have h2 := cleanSegs_plain_run segs rooted [] [] h
  simpa [cleanSegs_nil] using h2

/-- Helper: a trailing `.` segment after plain segments is dropped. -/
theorem cleanSegs_plain_then_dot (rooted : Bool) (segs : List (List Char))
    (h : ∀ seg ∈ segs, plainSeg seg) :
    cleanSegs rooted (segs ++ [['.']]) [] = segs := by
  rw [cleanSegs_plain_run segs rooted [['.']] [] h]
  rw [cleanSegs_dot, cleanSegs_nil]
  simp

/-- Helper: `pathCleanL` on a rooted path built from slash-free segments is
determined by the segment processing. -/
theorem pathCleanL_rooted (L out : List (List Char)) (hL0 : L ≠ [])
    (hslash : ∀ seg ∈ L, '/' ∉ seg)
    (hclean : cleanSegs true ([] :: L) [] = out) (h0 : out ≠ []) :
    pathCleanL ('/' :: joinSegs L) = '/' :: joinSegs out := by
  have hsplit : splitSlash ('/' :: joinSegs L) = [] :: L := by
    have h1 : splitSlash ('/' :: joinSegs L) =
        [] :: splitSlash (joinSegs L) := by
      simp [splitSlash]
    rw [h1, splitSlash_joinSegs L hL0 hslash]
  simp only [pathCleanL, if_pos rfl, hsplit, hclean]
  cases out with
  | nil => exact absurd rfl h0
  | cons o os => rfl

/-- Helper: a rooted path string is never empty. -/
theorem rootedStr_ne_empty (segs : List (List Char)) : rootedStr segs ≠ "" := by
  intro h
  have h2 : ('/' :: joinSegs segs) = ([] : List Char) :=
    congrArg String.data h
  simp at h2

/-- Helper: `path.Join` of three elements with a nonempty first element. -/
theorem pathJoin_three (a b c : String) (ha : a ≠ "") :
    pathJoin [a, b, c] =
      pathClean (String.mk (a.data ++ '/' :: (b.data ++ '/' :: c.data))) := by
  have hd : (fun e => decide (e = "")) a = false := by simp [ha]
  simp only [pathJoin, List.dropWhile_cons, hd, Bool.false_eq_true, if_false]
  rfl

/-- Helper: the general target-path computation for a normal relative path:
all components plain gives the plain slash-joined concatenation. -/
theorem targetPath_plain (ds rs : List (List Char)) (b : List Char)
    (hds : ∀ seg ∈ ds, plainSeg seg) (hb : plainSeg b)
    (hrs : ∀ seg ∈ rs, plainSeg seg) (hrs0 : rs ≠ []) :
    targetPath (rootedStr ds) (String.mk b) (String.mk (joinSegs rs)) =
      rootedStr (ds ++ b :: rs) := by
  rw [targetPath, pathJoin_three _ _ _ (rootedStr_ne_empty ds)]
  show String.mk (pathCleanL (('/' :: joinSegs ds) ++ '/' ::
      (b ++ '/' :: joinSegs rs))) = String.mk ('/' :: joinSegs (ds ++ b :: rs))
  apply congrArg String.mk
  have hjbr : joinSegs (b :: rs) = b ++ '/' :: joinSegs rs := by
    cases rs with
    | nil => exact absurd rfl hrs0
    | cons r rs2 => rfl
  have hslashb : '/' ∉ b := hb.2.2.2
  have hslashrs : ∀ seg ∈ rs, '/' ∉ seg := fun seg hm => (hrs seg hm).2.2.2
  cases ds with
  | nil =>
    have hL : ('/' :: joinSegs ([] : List (List Char))) ++ '/' ::
        (b ++ '/' :: joinSegs rs) = '/' :: joinSegs ([] :: b :: rs) := by
      simp [joinSegs, hjbr]
    rw [hL]
    rw [pathCleanL_rooted ([] :: b :: rs) (b :: rs) (by simp)
      (by
        intro seg hm
        simp only [List.mem_cons] at hm
        rcases hm with h | h | h
        · subst h; simp
        · subst h; exact hslashb
        · exact hslashrs seg h)
      (by
        rw [cleanSegs_skip, cleanSegs_skip]
        exact cleanSegs_all_plain true (b :: rs)
          (fun seg hm => by
            simp only [List.mem_cons] at hm
            rcases hm with h | h
            · subst h; exact hb
            · exact hrs seg h))
      (by simp)]
    simp
  | cons d ds2 =>
    have hall : ∀ seg ∈ (d :: ds2) ++ b :: rs, plainSeg seg := by
      intro seg hm
      rcases List.mem_append.mp hm with h | h
      · exact hds seg h
      · simp only [List.mem_cons] at h
        rcases h with h | h
        · subst h; exact hb
        · exact hrs seg h
    have hL : ('/' :: joinSegs (d :: ds2)) ++ '/' ::
        (b ++ '/' :: joinSegs rs) = '/' :: joinSegs ((d :: ds2) ++ b :: rs) := by
      rw [joinSegs_append (d :: ds2) (b :: rs) (by simp) (by simp), hjbr]
      simp
    rw [hL]
    rw [pathCleanL_rooted ((d :: ds2) ++ b :: rs) ((d :: ds2) ++ b :: rs)
      (by simp)
      (fun seg hm => (hall seg hm).2.2.2)
      (by rw [cleanSegs_skip]; exact cleanSegs_all_plain true _ hall)
      (by simp)]

/-- Helper: the target-path computation when the relative path is `"."`,
which is the case when the matched source entry is itself a regular file:
the `.` segment is cleaned away and the path collapses. -/
theorem targetPath_dot (ds : List (List Char)) (b : List Char)
    (hds : ∀ seg ∈ ds, plainSeg seg) (hb : plainSeg b) :
    targetPath (rootedStr ds) (String.mk b) "." = rootedStr (ds ++ [b]) := by
  rw [targetPath, pathJoin_three _ _ _ (rootedStr_ne_empty ds)]
  show String.mk (pathCleanL (('/' :: joinSegs ds) ++ '/' ::
      (b ++ '/' :: ['.']))) = String.mk ('/' :: joinSegs (ds ++ [b]))
  apply congrArg String.mk
  have hslashb : '/' ∉ b := hb.2.2.2
  cases ds with
  | nil =>
    have hL : ('/' :: joinSegs ([] : List (List Char))) ++ '/' ::
        (b ++ '/' :: ['.']) = '/' :: joinSegs ([] :: b :: [['.']]) := by
      simp [joinSegs]
    rw [hL]
    rw [pathCleanL_rooted ([] :: b :: [['.']]) [b] (by simp)
      (by
        intro seg hm
        simp only [List.mem_cons] at hm
        rcases hm with h | h | h
        · subst h; simp
        · subst h; exact hslashb
        · simp at h; subst h; simp)
      (by
        rw [cleanSegs_skip, cleanSegs_skip]
        exact cleanSegs_plain_then_dot true [b]
          (fun seg hm => by simp at hm; subst hm; exact hb))
      (by simp)]
    simp
  | cons d ds2 =>
    have hplainb : ∀ seg ∈ (d :: ds2) ++ [b], plainSeg seg := by
      intro seg hm
      rcases List.mem_append.mp hm with h | h
      · exact hds seg h
      · simp at h; subst h; exact hb
    have hL : ('/' :: joinSegs (d :: ds2)) ++ '/' ::
        (b ++ '/' :: ['.']) = '/' :: joinSegs ((d :: ds2) ++ [b, ['.']]) := by
      rw [joinSegs_append (d :: ds2) [b, ['.']] (by simp) (by simp)]
      simp [joinSegs]
    rw [hL]
    rw [pathCleanL_rooted ((d :: ds2) ++ [b, ['.']]) ((d :: ds2) ++ [b])
      (by simp)
      (by
        intro seg hm
        rcases List.mem_append.mp hm with h | h
        · exact (hds seg h).2.2.2
        · simp only [List.mem_cons] at h
          rcases h with h | h
          · subst h; exact hslashb
          · simp at h; subst h; simp)
      (by
        rw [cleanSegs_skip]
        rw [show (d :: ds2) ++ [b, ['.']] = ((d :: ds2) ++ [b]) ++ [['.']]
          from by simp]
        exact cleanSegs_plain_then_dot true _ hplainb)
      (by simp)]

/-- C8: each regular file found during the walk is registered under
`path.Join(targetDir, baseName(src), rel)`: for plain components this is the
slash-joined concatenation `targetDir / base / rel`; when the matched source
entry is itself a regular file the relative path is `"."` and the target
collapses to `targetDir / base`; in particular mapping `assets::/static`
with `assets/sub/file.txt` yields key `/static/assets/sub/file.txt`, and
mapping `testdata/hello.txt::/docs` yields key `/docs/hello.txt`. -/
theorem walk_target_path (ds rs : List (List Char)) (b : List Char)
    (hds : ∀ seg ∈ ds, plainSeg seg) (hb : plainSeg b)
    (hrs : ∀ seg ∈ rs, plainSeg seg) (hrs0 : rs ≠ []) :
    (targetPath (rootedStr ds) (String.mk b) (String.mk (joinSegs rs)) =
        rootedStr (ds ++ b :: rs))
  ∧ targetPath (rootedStr ds) (String.mk b) "." = rootedStr (ds ++ [b])
  ∧ targetPath "/static" "assets" "sub/file.txt" = "/static/assets/sub/file.txt"
  ∧ targetPath "/docs" "hello.txt" "." = "/docs/hello.txt" :=
  ⟨targetPath_plain ds rs b hds hb hrs hrs0,
   targetPath_dot ds b hds hb,
   by decide,
   by decide⟩

/-- Witness for C8 at concrete segments: `targetDir = "/a"`, `base = "b"`,
`rel = "c"` yields `/a/b/c`. -/
theorem walk_target_path_witness :
    targetPath (rootedStr [['a']]) (String.mk ['b'])
        (String.mk (joinSegs [['c']])) = rootedStr ([['a']] ++ ['b'] :: [['c']]) :=
  (walk_target_path [['a']] [['c']] ['b'] (by decide) (by decide) (by decide)
    (by decide)).1

end Govfs
